import Mathlib

/-!
Shallow embedding of the asynchronous query subsystem of
`src/Realm/ObjectStore/impl/async_query.cpp` (class `AsyncQuery`), and proofs
about its callback registry, its delivery logic, its row-diff engine
(`calculate_changes`) and its link-traversal modification test
(`row_did_change`).

Machine integers (`size_t`) are modeled as `Nat`; the `-1ULL` sentinel is the
explicit constant `npos = 2^64 - 1`, and the one place where signed/unsigned
mixed arithmetic occurs (`new_index.second + shift` with `int shift`) is
modeled with an explicit `% 2^64`.  The cursor `m_callback_index`, whose only
reachable values are `npos` and indices below the registry size, is modeled as
`Option Nat` (`none` = `npos`); its `size_t` wrap-around decrement from `0` to
`npos` is the `some 0 ↦ none` case.  Callback function objects are identified
by a ghost numeral `fn` drawn from a fresh counter `next_fn`, standing for the
identity of the `std::function` value.
-/

namespace RealmAQ

/-- `-1ULL` / `size_t npos`: the sentinel used for "no index". -/
def npos : Nat := 2 ^ 64 - 1

/-- One entry of `m_callbacks` (struct `Callback` in `async_query.hpp`):
the callback function (as a ghost identity), its token, the last delivered
table version, and the watched column paths. -/
structure Callback where
  fn : Nat
  token : Nat
  delivered_version : Nat
  columns_to_watch : List (List Nat)
deriving Repr, DecidableEq

def defaultCallback : Callback := ⟨0, 0, 0, []⟩

/-- Per-table change record (`ChangeInfo`): the set of changed rows and the
old-index → new-index move map, modeled as lists. -/
structure ChangeInfo where
  changed : List Nat
  moves : List (Nat × Nat)
deriving Repr, DecidableEq

/-- `map_moves`: look `idx` up in `changes.moves` and replace it by the mapped
index when present (the C++ version mutates `idx` and reports whether it did;
only the mutation is observable in this file's callers). -/
def map_moves (idx : Nat) (changes : ChangeInfo) : Nat :=
  match changes.moves.lookup idx with
  | some j => j
  | none => idx

/-- The mutable state of one `AsyncQuery` (the fields of the class that the
verified operations read or write).  `target_results` is whether the weak
back-reference to the `Results` handle is non-null, `target_view` is the view
currently installed in that handle, `error` is whether `m_error` holds an
exception, and `next_fn` is the ghost supply of callback identities. -/
structure AsyncQuery where
  callbacks : List Callback
  callback_index : Option Nat
  error : Bool
  have_callbacks : Bool
  delievered_table_version : Nat
  handed_over_table_version : Nat
  sg_version : Nat
  initial_run_complete : Bool
  target_results : Bool
  tv_handover : Option Nat
  target_view : Option Nat
  changes : List (Nat × Nat)
  next_fn : Nat
deriving Repr, DecidableEq

/-- The state of a freshly constructed `AsyncQuery`: no callbacks, cursor at
`npos`, no latched error, initial run not complete. -/
def AsyncQuery.init (sg_version : Nat) : AsyncQuery where
  callbacks := []
  callback_index := none
  error := false
  have_callbacks := false
  delievered_table_version := npos
  handed_over_table_version := 0
  sg_version := sg_version
  initial_run_complete := false
  target_results := true
  tv_handover := none
  target_view := none
  changes := []
  next_fn := 0

/-- `AsyncQuery::next_token`: one more than the largest token currently in
use (`0` when the registry is empty). -/
def next_token (cbs : List Callback) : Nat :=
  cbs.foldl (fun token cb => if token ≤ cb.token then cb.token + 1 else token) 0

/-- `AsyncQuery::add_callback`: allocate a token, append the entry with
`delivered_version = -1ULL`, and (when no iteration is in progress) request
commit notifications and set `m_have_callbacks`.  Returns the token. -/
def add_callback (s : AsyncQuery) (columns_to_watch : List (List Nat)) :
    AsyncQuery × Nat :=
  let token := next_token s.callbacks
  let s' := { s with
    callbacks := s.callbacks ++ [⟨s.next_fn, token, npos, columns_to_watch⟩],
    next_fn := s.next_fn + 1 }
  if s'.callback_index = none then
    ({ s' with have_callbacks := true }, token)
  else
    (s', token)

/-- `AsyncQuery::remove_callback`: erase the entry with the given token (when
present); when an iteration is in progress and the erased entry lies at or
before the cursor, decrement the cursor (with the `size_t` wrap from `0` to
`npos` modeled as `some 0 ↦ none`). -/
def remove_callback (s : AsyncQuery) (token : Nat) : AsyncQuery :=
  match s.callbacks.findIdx? (fun c => c.token = token) with
  | none => s
  | some idx =>
    let cbs' := s.callbacks.eraseIdx idx
    { s with
      callbacks := cbs',
      callback_index :=
        match s.callback_index with
        | some c =>
          if idx ≤ c then (if c = 0 then none else some (c - 1)) else some c
        | none => none,
      have_callbacks := !cbs'.isEmpty }

/-- The index the `for (++m_callback_index; ...)` scan of
`AsyncQuery::next_callback` starts at: `0` from `npos`, else cursor + 1. -/
def cursorPos (s : AsyncQuery) : Nat :=
  match s.callback_index with
  | none => 0
  | some c => c + 1

/-- Offset of the first entry of `cbs` satisfying the loop condition of
`AsyncQuery::next_callback` (`m_error || delivered_version ≠ current`). -/
def findEligible (error : Bool) (dv : Nat) : List Callback → Option Nat
  | [] => none
  | cb :: rest =>
    if error || cb.delivered_version ≠ dv then some 0
    else (findEligible error dv rest).map (fun k => k + 1)

/-- Record the delivery of the current table version into a callback entry. -/
def markDelivered (cb : Callback) (dv : Nat) : Callback :=
  { cb with delivered_version := dv }

/-- `AsyncQuery::next_callback`: advance the cursor to the next entry whose
`delivered_version` differs from `m_delievered_table_version` (any entry when
an error is latched), mark it delivered, and yield its function; when the
scan falls off the end, park the cursor at `npos` and yield nothing. -/
def next_callback (s : AsyncQuery) : AsyncQuery × Option Nat :=
  let start := cursorPos s
  match findEligible s.error s.delievered_table_version (s.callbacks.drop start) with
  | none => ({ s with callback_index := none }, none)
  | some k =>
    let idx := start + k
    let cb := s.callbacks.getD idx defaultCallback
    ({ s with
        callback_index := some idx,
        callbacks := s.callbacks.set idx (markDelivered cb s.delievered_table_version) },
     some cb.fn)

/-- `size_t + int` mixed arithmetic of `new_index.second + shift`: the `int`
is converted to `size_t` and the addition wraps modulo `2^64`. -/
def usize_add (p : Nat) (shift : Int) : Nat :=
  (((p : Int) + shift).emod (2 ^ 64)).toNat

/-- The two-pointer merge loop of `AsyncQuery::calculate_changes`
(`do_calculate_changes`), with the `while` loop over indices `i, j` turned
into recursion over the two lists and the two trailing flush loops into the
base cases.  `rdc idx` stands for
`row_did_change(*m_query->get_table(), idx, modified_rows)`. -/
def dccAux (rdc : Nat → Bool) (shift : Int) :
    List (Nat × Nat) → List (Nat × Nat) → List (Nat × Nat)
  | [], news => news.map (fun p => (npos, p.2))
  | olds, [] => olds.map (fun p => (p.2, npos))
  | (o, oP) :: olds, (n, nP) :: news =>
    if o = n then
      if oP ≠ usize_add nP shift then
        (oP, usize_add nP shift) :: dccAux rdc shift olds news
      else if rdc o then
        (oP, oP) :: dccAux rdc shift olds news
      else
        dccAux rdc shift olds news
    else if o < n then
      (oP, npos) :: dccAux rdc (shift + 1) olds ((n, nP) :: news)
    else
      (npos, nP) :: dccAux rdc (shift - 1) ((o, oP) :: olds) news
termination_by olds news => olds.length + news.length

/-- `do_calculate_changes(old_rows, new_rows)`: the merge starting with
`i = j = 0` and `shift = 0`. -/
def do_calculate_changes (rdc : Nat → Bool)
    (old_rows new_rows : List (Nat × Nat)) : List (Nat × Nat) :=
  dccAux rdc 0 old_rows new_rows

/-- `std::stable_sort` by the first component with comparator
`lft.first < rgt.first`. -/
def sortByFirst (l : List (Nat × Nat)) : List (Nat × Nat) :=
  l.mergeSort (fun a b => a.1 ≤ b.1)

/-- The `old_rows` construction of `AsyncQuery::calculate_changes`
(lines 239-246): pair each entry of `m_previous_rows` with its position and
stable-sort by row index.  No move mapping is applied here. -/
def build_old_rows (previous_rows : List Nat) : List (Nat × Nat) :=
  sortByFirst ((previous_rows.enum).map (fun p => (p.2, p.1)))

/-- The `new_rows` construction of `AsyncQuery::calculate_changes`
(lines 250-259): pair each row index of `m_tv` with its position, apply
`map_moves` to the row index when the root table has a change record, and
stable-sort by row index. -/
def build_new_rows (tv : List Nat) (changes : Option ChangeInfo) :
    List (Nat × Nat) :=
  sortByFirst ((tv.enum).map (fun p =>
    (match changes with
     | some c => map_moves p.2 c
     | none => p.2, p.1)))

/-- `AsyncQuery::calculate_changes`: select the root table's change record,
build the two sorted sequences and run the merge. -/
def calculate_changes (rdc : Nat → Bool) (table_ndx : Nat)
    (modified_rows : List ChangeInfo) (previous_rows tv : List Nat) :
    List (Nat × Nat) :=
  let changes :=
    if table_ndx < modified_rows.length then
      some (modified_rows.getD table_ndx ⟨[], []⟩)
    else none
  do_calculate_changes rdc (build_old_rows previous_rows)
    (build_new_rows tv changes)

/-- `AsyncQuery::deliver`: reject when off-thread, when the target is gone,
when the initial run is incomplete and no error is passed, or (after latching
a passed error and returning `m_have_callbacks`) when the consumer's
transaction version does not match the recorded one; otherwise import the
pending handover (when present) into the target and record the delivered
table version.  `realm_version` stands for
`get_version_of_current_transaction()` of the consumer's shared group and
`on_consumer_thread` for `is_for_current_thread()`. -/
def deliver (s : AsyncQuery) (on_consumer_thread : Bool) (err : Bool)
    (realm_version : Nat) : AsyncQuery × Bool :=
  if !on_consumer_thread then (s, false)
  else if !s.target_results then (s, false)
  else if !s.initial_run_complete && !err then (s, false)
  else if err then ({ s with error := true }, s.have_callbacks)
  else if s.sg_version ≠ realm_version then (s, false)
  else
    match s.tv_handover with
    | some v =>
      ({ s with
          tv_handover := none,
          target_view := some v,
          delievered_table_version := s.handed_over_table_version },
       s.have_callbacks)
    | none => (s, s.have_callbacks)

theorem findEligible_lt_length {e : Bool} {dv : Nat} {l : List Callback}
    {k : Nat} (h : findEligible e dv l = some k) : k < l.length := by
  induction l generalizing k with
  | nil => simp [findEligible] at h
  | cons cb rest ih =>
    rw [findEligible] at h
    split at h
    · simp only [Option.some.injEq] at h
      subst h
      simp
    · cases hr : findEligible e dv rest with
      | none => rw [hr] at h; simp at h
      | some k' =>
        rw [hr] at h
        simp at h
        subst h
        simpa using ih hr

theorem next_callback_yield_facts {s s' : AsyncQuery} {f : Nat}
    (h : next_callback s = (s', some f)) :
    s'.callbacks.length = s.callbacks.length ∧
      cursorPos s < cursorPos s' ∧ cursorPos s < s.callbacks.length := by
  rw [next_callback] at h
  cases hf : findEligible s.error s.delievered_table_version
      (s.callbacks.drop (cursorPos s)) with
  | none => rw [hf] at h; simp at h
  | some k =>
    rw [hf] at h
    have hk := findEligible_lt_length hf
    rw [List.length_drop] at hk
    simp only [Prod.mk.injEq] at h
    obtain ⟨hs, -⟩ := h
    subst hs
    refine ⟨by simp, ?_, by omega⟩
    simp [cursorPos]
    omega

/-- The `while (auto fn = next_callback())` loop of
`AsyncQuery::call_callbacks`, collecting the functions fired (no reentrant
registry mutation happens between yields here; the reentrant case is modeled
by `runDelivery` below).  Terminates because each yield moves the cursor
strictly forward. -/
def call_callbacks_loop (s : AsyncQuery) : AsyncQuery × List Nat :=
  match h : next_callback s with
  | (s', none) => (s', [])
  | (s', some fnId) =>
    let r := call_callbacks_loop s'
    (r.1, fnId :: r.2)
termination_by s.callbacks.length - cursorPos s
decreasing_by
  have := next_callback_yield_facts h
  omega

/-- `AsyncQuery::call_callbacks`: run the loop, then clear the registry when
an error is latched, and clear the accumulated changeset. -/
def call_callbacks (s : AsyncQuery) : AsyncQuery × List Nat :=
  let r := call_callbacks_loop s
  let s' := if r.1.error then { r.1 with callbacks := [] } else r.1
  ({ s' with changes := [] }, r.2)

/-- The kind of a column as tested by `table.get_column_type(i)`:
`type_Link`, `type_LinkList`, or anything else. -/
inductive ColType where
  | Link : ColType
  | LinkList : ColType
  | Other : ColType
deriving Repr, DecidableEq

/-- One column of a table: its type, the group index of its link target
(`get_link_target`), and its per-row link (`get_link`) and link list
(`get_linklist`) contents. -/
structure ColumnDesc where
  ctype : ColType
  target : Nat
  link : Nat → Nat
  linklist : Nat → List Nat

/-- A table, identified in a `Group` by its index (`get_index_in_group`). -/
structure TableDesc where
  columns : List ColumnDesc

/-- A group of tables: the world that `row_did_change` traverses. -/
def Group := Nat → TableDesc

mutual

/-- `row_did_change(table, idx, modified, depth)` (lines 163-196): give up
(returning "not modified") beyond depth 16; otherwise map `idx` through the
table's move record and report a change when the mapped index is in the
table's changed set; otherwise scan the columns. -/
def row_did_change (g : Group) (t : Nat) (idx : Nat)
    (modified : List ChangeInfo) (depth : Nat) : Bool :=
  if 16 < depth then false
  else
    let changes := modified.getD t ⟨[], []⟩
    let idx2 := if t < modified.length then map_moves idx changes else idx
    if t < modified.length && changes.changed.contains idx2 then true
    else scanCols g (g t).columns idx2 modified depth
termination_by (17 - depth, 2 * min (17 - depth) 1, 0)
decreasing_by all_goals (simp [Prod.lex_def] <;> omega)

/-- The `for` loop over columns in `row_did_change`: a `type_Link` column
returns the recursive traversal of its target directly (later columns are
never examined); a `type_LinkList` column examines each list element and
falls through to the remaining columns; other columns are skipped. -/
def scanCols (g : Group) (cols : List ColumnDesc) (idx : Nat)
    (modified : List ChangeInfo) (depth : Nat) : Bool :=
  match cols with
  | [] => false
  | c :: rest =>
    match c.ctype with
    | .Link => row_did_change g c.target (c.link idx) modified (depth + 1)
    | .LinkList =>
      scanList g c.target (c.linklist idx) modified depth ||
        scanCols g rest idx modified depth
    | .Other => scanCols g rest idx modified depth
termination_by (17 - depth, 1, cols.length)
decreasing_by all_goals (simp [Prod.lex_def] <;> omega)

/-- The inner `for` loop over the elements of a link list in
`row_did_change`, with the early `return true`. -/
def scanList (g : Group) (t : Nat) (dsts : List Nat)
    (modified : List ChangeInfo) (depth : Nat) : Bool :=
  match dsts with
  | [] => false
  | d :: rest =>
    row_did_change g t d modified (depth + 1) || scanList g t rest modified depth
termination_by (17 - depth, 0, dsts.length)
decreasing_by all_goals (simp [Prod.lex_def] <;> omega)

end

/-- A registry operation that a callback may perform reentrantly (or that app
code performs between deliveries): `add_callback` or `remove_callback`. -/
inductive CbOp where
  | add (columns_to_watch : List (List Nat)) : CbOp
  | remove (token : Nat) : CbOp
deriving Repr, DecidableEq

def applyOp (s : AsyncQuery) : CbOp → AsyncQuery
  | .add cols => (add_callback s cols).1
  | .remove t => remove_callback s t

def applyOps (s : AsyncQuery) (ops : List CbOp) : AsyncQuery :=
  ops.foldl applyOp s

/-- One delivery of `AsyncQuery::call_callbacks` with reentrant registry
mutation: each yielded callback runs the corresponding list of add/remove
operations before the next `next_callback` call.  Returns the final state,
the list of yielded callback identities, and whether the loop drained (saw
`next_callback` return null) rather than running out of modeled steps. -/
def runDelivery (s : AsyncQuery) :
    List (List CbOp) → AsyncQuery × List Nat × Bool
  | [] => (s, [], false)
  | ops :: rest =>
    match next_callback s with
    | (s', none) => (s', [], true)
    | (s', some fnId) =>
      let r := runDelivery (applyOps s' ops) rest
      (r.1, fnId :: r.2.1, r.2.2)

/-- The diff algorithm as worded by the specification (§4.2 "Algorithm"):
walk both sequences, on equal row indices emit a positional move when the
shifted positions disagree, else an in-place modification when the row is
modified, else nothing; on `old < new` emit a delete and bump the shift; on
`old > new` emit an insert and drop the shift; flush the remaining tails as
deletes and inserts.  Written from the specification's words, for comparison
with `dccAux`, which is translated from the source. -/
def spec_diff (is_modified : Nat → Bool) (shift : Int) :
    List (Nat × Nat) → List (Nat × Nat) → List (Nat × Nat)
  | (o, oP) :: olds, (n, nP) :: news =>
    match compare o n with
    | .eq =>
      if oP ≠ usize_add nP shift then
        (oP, usize_add nP shift) :: spec_diff is_modified shift olds news
      else if is_modified o then
        (oP, oP) :: spec_diff is_modified shift olds news
      else
        spec_diff is_modified shift olds news
    | .lt =>
      (oP, npos) :: spec_diff is_modified (shift + 1) olds ((n, nP) :: news)
    | .gt =>
      (npos, nP) :: spec_diff is_modified (shift - 1) ((o, oP) :: olds) news
  | olds, news =>
    olds.map (fun p => (p.2, npos)) ++ news.map (fun p => (npos, p.2))
termination_by olds news => olds.length + news.length

/-- Following one watched column path from a row, as worded by claim C7 and
specification §4.2 "Modification detection": the empty path tests whether the
row appears in the change record of the (terminal) table; a link column hop
follows the link; a link-list hop examines each target row.  Written from the
claim's words, for comparison with `row_did_change`, which is translated from
the source. -/
def path_reaches (g : Group) (modified : List ChangeInfo) :
    List Nat → Nat → Nat → Bool
  | [], t, idx =>
    decide (t < modified.length) && (modified.getD t ⟨[], []⟩).changed.contains idx
  | c :: rest, t, idx =>
    match ((g t).columns.getD c ⟨ColType.Other, 0, fun _ => 0, fun _ => []⟩) with
    | col =>
      match col.ctype with
      | .Link => path_reaches g modified rest col.target (col.link idx)
      | .LinkList => (col.linklist idx).any (fun d => path_reaches g modified rest col.target d)
      | .Other => false

/-- Modification detection as worded by claim C7: a row is modified iff its
index appears in the root table's changed set, or following one of the
registry's watched column paths from it reaches a row in the change record of
the path's terminal table.  Written from the claim's words, for comparison
with `row_did_change`. -/
def modified_per_claim (g : Group) (watched_paths : List (List Nat))
    (t : Nat) (idx : Nat) (modified : List ChangeInfo) : Bool :=
  (decide (t < modified.length) &&
      (modified.getD t ⟨[], []⟩).changed.contains idx) ||
    watched_paths.any (fun p => path_reaches g modified p t idx)

/-! ### Helper lemmas about token allocation -/

theorem le_foldl_next_token (cbs : List Callback) (acc : Nat) :
    acc ≤ cbs.foldl
      (fun token cb => if token ≤ cb.token then cb.token + 1 else token) acc := by
  induction cbs generalizing acc with
  | nil => exact Nat.le_refl _
  | cons c rest ih =>
    refine Nat.le_trans ?_ (ih _)
    by_cases h : acc ≤ c.token
    · simp only [List.foldl, if_pos h]; omega
    · simp only [List.foldl, if_neg h]
      exact Nat.le_refl _

theorem token_lt_foldl {cbs : List Callback} {cb : Callback} (acc : Nat)
    (h : cb ∈ cbs) :
    cb.token < cbs.foldl
      (fun token cb => if token ≤ cb.token then cb.token + 1 else token) acc := by
  induction cbs generalizing acc with
  | nil => cases h
  | cons c rest ih =>
    rcases List.mem_cons.mp h with rfl | hmem
    · simp only [List.foldl]
      refine Nat.lt_of_lt_of_le ?_ (le_foldl_next_token _ _)
      by_cases hle : acc ≤ cb.token
      · simp only [if_pos hle]; omega
      · simp only [if_neg hle]; omega
    · exact ih _ hmem

theorem token_lt_next_token {cbs : List Callback} {cb : Callback}
    (h : cb ∈ cbs) : cb.token < next_token cbs :=
  token_lt_foldl 0 h

/-- Tokens of the registered callbacks are strictly increasing in registry
order. -/
def TokensSorted (cbs : List Callback) : Prop :=
  cbs.Pairwise (fun a b => a.token < b.token)

theorem tokensSorted_add {s : AsyncQuery} (h : TokensSorted s.callbacks)
    (cols : List (List Nat)) : TokensSorted (add_callback s cols).1.callbacks := by
  have hl : TokensSorted (s.callbacks ++
      [⟨s.next_fn, next_token s.callbacks, npos, cols⟩]) := by
    refine List.pairwise_append.mpr ⟨h, List.pairwise_singleton _ _, ?_⟩
    intro a ha b hb
    rw [List.mem_singleton] at hb
    subst hb
    exact token_lt_next_token ha
  rw [add_callback]
  split
  · exact hl
  · exact hl

theorem tokensSorted_remove {s : AsyncQuery} (h : TokensSorted s.callbacks)
    (t : Nat) : TokensSorted (remove_callback s t).callbacks := by
  rw [remove_callback]
  split
  · exact h
  · exact List.Pairwise.sublist (s.callbacks.eraseIdx_sublist _) h

theorem tokensSorted_applyOp {s : AsyncQuery} (h : TokensSorted s.callbacks)
    (op : CbOp) : TokensSorted (applyOp s op).callbacks := by
  cases op with
  | add cols => exact tokensSorted_add h cols
  | remove t => exact tokensSorted_remove h t

theorem tokensSorted_applyOps {s : AsyncQuery} (h : TokensSorted s.callbacks)
    (ops : List CbOp) : TokensSorted (applyOps s ops).callbacks := by
  induction ops generalizing s with
  | nil => exact h
  | cons op rest ih => exact ih (tokensSorted_applyOp h op)

/-- C6, corrected claim: at every point of a query's lifetime, the tokens of
the **currently registered** callbacks are pairwise distinct (each
`add_callback` allocates strictly above every live token).  The original
claim — that no token value is ever allocated twice across the whole
lifetime — is false: see `C6_token_reuse_counterexample`. -/
theorem C6_amended_live_tokens_distinct (v : Nat) (ops : List CbOp) :
    (((applyOps (AsyncQuery.init v) ops).callbacks).map Callback.token).Nodup := by
  have hs : TokensSorted (applyOps (AsyncQuery.init v) ops).callbacks :=
    tokensSorted_applyOps (by simp [AsyncQuery.init, TokensSorted]) ops
  exact hs.map Callback.token (fun {a b} hab => Nat.ne_of_lt hab)

/-- C6, counterexample: `next_token` is computed from the *currently*
registered callbacks only, so after `add` (token 0), `remove` (token 0), a
second `add` returns token 0 again — the same token value is allocated twice
within one query's lifetime. -/
theorem C6_token_reuse_counterexample :
    (add_callback (AsyncQuery.init 0) []).2 = 0 ∧
      (add_callback
        (remove_callback (add_callback (AsyncQuery.init 0) []).1
          (add_callback (AsyncQuery.init 0) []).2) []).2 = 0 := by
  constructor <;> decide

/-! ### C9: rejection paths of deliver -/

/-- C9: `deliver` returns `false` and leaves the whole state — in particular
the pending handover packet `tv_handover` and the target's view
`target_view` — untouched whenever the calling thread is not the consumer
thread, or the target back-reference is null, or the initial run is not
complete and no error is passed, or no error is passed and the consumer's
transaction version differs from the recorded `m_sg_version`. -/
theorem C9_deliver_rejections (s : AsyncQuery) (on_consumer_thread err : Bool)
    (realm_version : Nat) :
    (on_consumer_thread = false →
      deliver s on_consumer_thread err realm_version = (s, false)) ∧
    (s.target_results = false →
      deliver s on_consumer_thread err realm_version = (s, false)) ∧
    (s.initial_run_complete = false → err = false →
      deliver s on_consumer_thread err realm_version = (s, false)) ∧
    (err = false → s.sg_version ≠ realm_version →
      deliver s on_consumer_thread err realm_version = (s, false)) := by
  refine ⟨?_, ?_, ?_, ?_⟩
  · intro h; simp [deliver, h]
  · intro h
    cases on_consumer_thread
    · simp [deliver]
    · simp [deliver, h]
  · intro h he
    cases on_consumer_thread
    · simp [deliver]
    · cases htr : s.target_results
      · simp [deliver, htr]
      · simp [deliver, htr, h, he]
  · intro he hv
    cases on_consumer_thread
    · simp [deliver]
    · cases htr : s.target_results
      · simp [deliver, htr]
      · cases hic : s.initial_run_complete
        · simp [deliver, htr, hic, he]
        · simp [deliver, htr, hic, he, hv]

/-- Witness for C9 at a concrete input: a wrong-thread delivery against a
fresh query is rejected with the state unchanged. -/
theorem C9_witness :
    deliver (AsyncQuery.init 3) false false 5 = (AsyncQuery.init 3, false) :=
  (C9_deliver_rejections (AsyncQuery.init 3) false false 5).1 rfl

/-! ### Unfolding lemmas for the traversal functions -/

theorem scanCols_nil (g : Group) (idx : Nat) (modified : List ChangeInfo)
    (depth : Nat) : scanCols g [] idx modified depth = false := by
  rw [scanCols.eq_def]

theorem scanCols_cons (g : Group) (c : ColumnDesc) (rest : List ColumnDesc)
    (idx : Nat) (modified : List ChangeInfo) (depth : Nat) :
    scanCols g (c :: rest) idx modified depth =
      (match c.ctype with
       | ColType.Link =>
         row_did_change g c.target (c.link idx) modified (depth + 1)
       | ColType.LinkList =>
         scanList g c.target (c.linklist idx) modified depth ||
           scanCols g rest idx modified depth
       | ColType.Other => scanCols g rest idx modified depth) := by
  rw [scanCols.eq_def]

theorem row_did_change_unfold (g : Group) (t idx : Nat)
    (modified : List ChangeInfo) (depth : Nat) :
    row_did_change g t idx modified depth =
      if 16 < depth then false
      else
        let changes := modified.getD t ⟨[], []⟩
        let idx2 := if t < modified.length then map_moves idx changes else idx
        if t < modified.length && changes.changed.contains idx2 then true
        else scanCols g (g t).columns idx2 modified depth := by
  rw [row_did_change.eq_def]

/-! ### C10: the first single-link column short-circuits the column scan -/

/-- C10: when the column list splits as `pre ++ lc :: post` with no
single-link column in `pre` and `lc` a single-link column, the column scan of
`row_did_change` equals the scan of `pre` (its link-list columns) or-ed with
the traversal through `lc` alone — the columns in `post` are never examined,
even when the traversal through `lc` reports no modification. -/
theorem C10_first_link_short_circuit (g : Group) (modified : List ChangeInfo)
    (depth idx : Nat) (pre : List ColumnDesc) (lc : ColumnDesc)
    (post : List ColumnDesc) (hpre : ∀ c ∈ pre, c.ctype ≠ ColType.Link)
    (hlc : lc.ctype = ColType.Link) :
    scanCols g (pre ++ lc :: post) idx modified depth =
      (scanCols g pre idx modified depth ||
        row_did_change g lc.target (lc.link idx) modified (depth + 1)) := by
  induction pre with
  | nil => simp [scanCols_cons, scanCols_nil, hlc]
  | cons c rest ih =>
    have hc : c.ctype ≠ ColType.Link := hpre c (List.mem_cons_self _ _)
    have hrest : ∀ x ∈ rest, x.ctype ≠ ColType.Link := fun x hx =>
      hpre x (List.mem_cons_of_mem _ hx)
    cases hct : c.ctype with
    | Link => exact absurd hct hc
    | LinkList =>
      rw [List.cons_append, scanCols_cons, hct, scanCols_cons, hct, ih hrest,
        Bool.or_assoc]
    | Other =>
      rw [List.cons_append, scanCols_cons, hct, scanCols_cons, hct, ih hrest]

/-- A non-link column and a link column used by the C10 witness. -/
def otherCol : ColumnDesc := ⟨ColType.Other, 0, fun _ => 0, fun _ => []⟩

def linkCol01 : ColumnDesc := ⟨ColType.Link, 1, fun _ => 0, fun _ => []⟩

/-- Two-table world for C7/C10: table 0 has one single-link column into
table 1; table 1 has no columns.  The change record marks row 0 of table 1
changed and nothing in table 0. -/
def gLinked : Group := fun t =>
  if t = 0 then ⟨[linkCol01]⟩ else ⟨[]⟩

def modLinked : List ChangeInfo := [⟨[], []⟩, ⟨[0], []⟩]

/-- Witness for C10: with one non-link column before the link column and one
column after it, the scan equals the pre-scan or-ed with the link traversal,
whatever the trailing column would have contributed. -/
theorem C10_witness :
    scanCols gLinked ([otherCol] ++ linkCol01 :: [linkCol01]) 0 modLinked 0 =
      (scanCols gLinked [otherCol] 0 modLinked 0 ||
        row_did_change gLinked linkCol01.target (linkCol01.link 0) modLinked 1) :=
  C10_first_link_short_circuit gLinked modLinked 0 0 [otherCol] linkCol01
    [linkCol01]
    (by intro c hc; rw [List.mem_singleton] at hc; subst hc; decide)
    (by decide)

/-! ### C8: the depth bound of row_did_change -/

/-- Single-table world with one single-link column `r ↦ (r+1) % 20`: a
20-cycle of rows, so from row 0 the row 17 is reachable only at link depth
17 (or more, around the cycle). -/
def gChain : Group :=
  fun _ => ⟨[⟨ColType.Link, 0, fun r => (r + 1) % 20, fun _ => []⟩]⟩

/-- C8: the traversal gives up beyond depth 16: any call at depth > 16
reports "not modified", and in the cyclic world `gChain` a changed row
reachable only at depth 17 is reported not modified while one at depth 16 is
found.  (Termination of the traversal for every input is established by the
definition of `row_did_change` itself being total.) -/
theorem C8_depth_bound :
    (∀ (g : Group) (t idx : Nat) (modified : List ChangeInfo) (depth : Nat),
        16 < depth → row_did_change g t idx modified depth = false) ∧
      row_did_change gChain 0 0 [⟨[17], []⟩] 0 = false ∧
      row_did_change gChain 0 0 [⟨[16], []⟩] 0 = true := by
  refine ⟨fun g t idx modified depth h => ?_, ?_, ?_⟩
  · rw [row_did_change_unfold, if_pos h]
  · simp [row_did_change, scanCols, scanList, gChain, map_moves]
  · simp [row_did_change, scanCols, scanList, gChain, map_moves]

/-- Witness for C8's depth-bound clause at a concrete depth. -/
theorem C8_witness : row_did_change gChain 0 0 [] 17 = false :=
  C8_depth_bound.1 gChain 0 0 [] 17 (by decide)

/-! ### C7: what makes a row "modified" -/

/-- C7, counterexample: the registry's watched column paths play no role in
`row_did_change`.  In `gLinked` the registry watches no path at all, row 0 of
the root table is unchanged, and the changed row is reachable only through
the (unwatched) link column — the claim classifies it unmodified, but
`row_did_change` reports it modified. -/
theorem C7_unwatched_column_triggers :
    row_did_change gLinked 0 0 modLinked 0 = true ∧
      modified_per_claim gLinked [] 0 0 modLinked = false := by
  constructor
  · simp [row_did_change, scanCols, scanList, gLinked, modLinked, map_moves,
      linkCol01]
  · simp [modified_per_claim, modLinked]

/-- C7, corrected claim: a row is classified modified iff the depth bound is
not exceeded and either its move-mapped index appears in its own table's
changed set, or the scan of **all** of the table's link and link-list
columns (`scanCols`, irrespective of any watched column path) reports a
change. -/
theorem C7_amended_traversal_characterization (g : Group) (t idx : Nat)
    (modified : List ChangeInfo) (depth : Nat) :
    row_did_change g t idx modified depth = true ↔
      (depth ≤ 16 ∧
        ((t < modified.length ∧
            (if t < modified.length then
                map_moves idx (modified.getD t ⟨[], []⟩)
              else idx) ∈ (modified.getD t ⟨[], []⟩).changed) ∨
          scanCols g (g t).columns
            (if t < modified.length then
                map_moves idx (modified.getD t ⟨[], []⟩)
              else idx) modified depth = true)) := by
  rw [row_did_change_unfold]
  by_cases h : 16 < depth
  · simp [h]
  · simp only [if_neg h]
    have h16 : depth ≤ 16 := by omega
    by_cases hc : (decide (t < modified.length) &&
        (modified.getD t ⟨[], []⟩).changed.contains
          (if t < modified.length then
              map_moves idx (modified.getD t ⟨[], []⟩)
            else idx)) = true
    · rw [if_pos hc]
      simp only [Bool.and_eq_true, decide_eq_true_eq, List.contains_eq_any_beq,
        List.any_eq_true, beq_iff_eq] at hc
      constructor
      · intro _
        refine ⟨h16, Or.inl ⟨hc.1, ?_⟩⟩
        obtain ⟨x, hx, hxe⟩ := hc.2
        exact hxe ▸ hx
      · intro _
        rfl
    · rw [if_neg hc]
      simp only [Bool.and_eq_true, decide_eq_true_eq, List.contains_eq_any_beq,
        List.any_eq_true, beq_iff_eq, not_and, not_exists] at hc
      constructor
      · intro hx
        exact ⟨h16, Or.inr hx⟩
      · rintro ⟨-, hl | hr⟩
        · exact absurd (⟨hl.2, rfl⟩ : _ ∧ _) (by
            intro hh
            exact (hc hl.1 _ hh.1) hh.2)
        · exact hr

/-! ### C4: the two-pointer walk matches its specification -/

theorem dccAux_nil_left (rdc : Nat → Bool) (shift : Int)
    (news : List (Nat × Nat)) :
    dccAux rdc shift [] news = news.map (fun p => (npos, p.2)) := by
  cases news with
  | nil => rw [dccAux.eq_def]
  | cons x xs => rw [dccAux.eq_def]

theorem dccAux_nil_right (rdc : Nat → Bool) (shift : Int)
    (olds : List (Nat × Nat)) :
    dccAux rdc shift olds [] = olds.map (fun p => (p.2, npos)) := by
  cases olds with
  | nil => rw [dccAux.eq_def]; rfl
  | cons o olds => rw [dccAux.eq_def]

theorem dccAux_cons_cons (rdc : Nat → Bool) (shift : Int) (o oP n nP : Nat)
    (olds news : List (Nat × Nat)) :
    dccAux rdc shift ((o, oP) :: olds) ((n, nP) :: news) =
      if o = n then
        if oP ≠ usize_add nP shift then
          (oP, usize_add nP shift) :: dccAux rdc shift olds news
        else if rdc o then
          (oP, oP) :: dccAux rdc shift olds news
        else
          dccAux rdc shift olds news
      else if o < n then
        (oP, npos) :: dccAux rdc (shift + 1) olds ((n, nP) :: news)
      else
        (npos, nP) :: dccAux rdc (shift - 1) ((o, oP) :: olds) news := by
  rw [dccAux.eq_def]

theorem spec_diff_nil_left (isMod : Nat → Bool) (shift : Int)
    (news : List (Nat × Nat)) :
    spec_diff isMod shift [] news = news.map (fun p => (npos, p.2)) := by
  cases news with
  | nil => rw [spec_diff.eq_def]; rfl
  | cons x xs => rw [spec_diff.eq_def]; rfl

theorem spec_diff_nil_right (isMod : Nat → Bool) (shift : Int)
    (olds : List (Nat × Nat)) :
    spec_diff isMod shift olds [] = olds.map (fun p => (p.2, npos)) := by
  cases olds with
  | nil => rw [spec_diff.eq_def]; rfl
  | cons o olds => rw [spec_diff.eq_def]; simp

theorem spec_diff_cc_eq (isMod : Nat → Bool) (shift : Int) (oP n nP : Nat)
    (olds news : List (Nat × Nat)) :
    spec_diff isMod shift ((n, oP) :: olds) ((n, nP) :: news) =
      if oP ≠ usize_add nP shift then
        (oP, usize_add nP shift) :: spec_diff isMod shift olds news
      else if isMod n then
        (oP, oP) :: spec_diff isMod shift olds news
      else
        spec_diff isMod shift olds news := by
  rw [spec_diff.eq_1, Nat.compare_eq_eq.mpr rfl]

theorem spec_diff_cc_lt (isMod : Nat → Bool) (shift : Int) (o oP n nP : Nat)
    (olds news : List (Nat × Nat)) (h : o < n) :
    spec_diff isMod shift ((o, oP) :: olds) ((n, nP) :: news) =
      (oP, npos) :: spec_diff isMod (shift + 1) olds ((n, nP) :: news) := by
  rw [spec_diff.eq_1, Nat.compare_eq_lt.mpr h]

theorem spec_diff_cc_gt (isMod : Nat → Bool) (shift : Int) (o oP n nP : Nat)
    (olds news : List (Nat × Nat)) (h : n < o) :
    spec_diff isMod shift ((o, oP) :: olds) ((n, nP) :: news) =
      (npos, nP) :: spec_diff isMod (shift - 1) ((o, oP) :: olds) news := by
  rw [spec_diff.eq_1, Nat.compare_eq_gt.mpr h]

/-- C4: the merge loop of `calculate_changes` walks the two row sequences
exactly as the specification words it: on equal row indices it emits
`{old.position, new.position + shift}` when the shifted positions disagree;
on `old.row_index < new.row_index` it emits `{old.position, SENTINEL}` and
increments the shift, advancing `i`; on `old.row_index > new.row_index` it
emits `{SENTINEL, new.position}` and decrements the shift, advancing `j`;
and the tails are flushed as deletes resp. inserts.  `spec_diff` is written
from the specification's words, `dccAux` from the source. -/
theorem C4_two_pointer_walk (rdc : Nat → Bool) (shift : Int)
    (olds news : List (Nat × Nat)) :
    dccAux rdc shift olds news = spec_diff rdc shift olds news := by
  induction shift, olds, news using dccAux.induct rdc with
  | case1 shift news => rw [dccAux_nil_left, spec_diff_nil_left]
  | case2 shift olds _ => rw [dccAux_nil_right, spec_diff_nil_right]
  | case3 shift oP olds n nP news h ih =>
    rw [dccAux_cons_cons, spec_diff_cc_eq, if_pos rfl, if_pos h, if_pos h, ih]
  | case4 shift oP olds n nP news h hm ih =>
    rw [dccAux_cons_cons, spec_diff_cc_eq, if_pos rfl, if_neg h, if_neg h,
      if_pos hm, if_pos hm, ih]
  | case5 shift oP olds n nP news h hm ih =>
    rw [dccAux_cons_cons, spec_diff_cc_eq, if_pos rfl, if_neg h, if_neg h,
      if_neg hm, if_neg hm, ih]
  | case6 shift o oP olds n nP news hne hlt ih =>
    rw [dccAux_cons_cons, spec_diff_cc_lt _ _ _ _ _ _ _ _ hlt, if_neg hne,
      if_pos hlt, ih]
  | case7 shift o oP olds n nP news hne hnlt ih =>
    have hgt : n < o := by omega
    rw [dccAux_cons_cons, spec_diff_cc_gt _ _ _ _ _ _ _ _ hgt, if_neg hne,
      if_neg hnlt, ih]

/-! ### C3: where the move mapping is applied -/

/-- C3, counterexample: with `previous_rows = [5]` and a move record
`5 ↦ 7`, the `old_rows` sequence fed to the diff is the **unmapped**
`[(5, 0)]` (the claim would require `[(7, 0)]`), while the `new_rows`
construction is the one that applies `map_moves`. -/
theorem C3_moves_applied_to_new_not_old :
    build_old_rows [5] = [(5, 0)] ∧
      build_new_rows [5] (some ⟨[], [(5, 7)]⟩) = [(7, 0)] ∧
      ([(5, 0)] : List (Nat × Nat)) ≠ [(7, 0)] := by
  refine ⟨?_, ?_, by decide⟩
  · simp [build_old_rows, sortByFirst]
  · simp [build_new_rows, sortByFirst, map_moves, List.lookup]

/-- C3, corrected claim: before the two-pointer diff runs, the root table's
moves mapping is applied to the row indices of **`new_rows`** (the freshly
materialized rows), while `old_rows` is the plain position-tagged and
row-index-sorted copy of `previous_rows` with no mapping applied. -/
theorem C3_amended_moves_on_new_rows (previous_rows tv : List Nat)
    (c : ChangeInfo) :
    (build_old_rows previous_rows).Perm
        ((previous_rows.enum).map (fun p => (p.2, p.1))) ∧
      (build_new_rows tv (some c)).Perm
        ((tv.enum).map (fun p => (map_moves p.2 c, p.1))) :=
  ⟨List.mergeSort_perm _ _, List.mergeSort_perm _ _⟩

/-! ### C2: the changeset does not replay old_rows into new_rows -/

/-- C2, failing input: `old_rows = [(0,0), (1,2), (2,1)]` (the previous view
held rows 0, 2, 1 in that order) and `new_rows = [(1,0), (2,1)]` (the new
view holds rows 1, 2): both are ascending in row index with positions that
are exactly the view positions, so the diff engine accepts them.  Row 0 was
deleted (old position 0); row 1 moved from old position 2 to new position 0;
row 2 stayed at position 1.  The computed changeset instead moves old
position 2 to "new position" 1 and old position 1 to "new position" 2 — but
2 is not a position of the two-element new view at all, so no application of
the changeset (deletes at old positions, inserts at new positions, moves
old_pos → new_pos) can produce `new_rows`. -/
theorem C2_roundtrip_failing_input :
    do_calculate_changes (fun _ => false) [(0, 0), (1, 2), (2, 1)]
        [(1, 0), (2, 1)] = [(0, npos), (2, 1), (1, 2)] ∧
      (2 : Nat) ∉ ([(1, 0), (2, 1)] : List (Nat × Nat)).map Prod.snd := by
  constructor
  · simp [do_calculate_changes, dccAux.eq_def, usize_add, npos]
    decide
  · decide

/-! ### C5: error delivery -/

theorem getD_of_drop_eq_cons {l : List Callback} {k : Nat} {cb : Callback}
    {rest : List Callback} (h : l.drop k = cb :: rest) :
    l.getD k defaultCallback = cb := by
  rw [List.getD_eq_getElem?_getD]
  have h0 : l[k]? = some cb := by
    have := List.getElem?_drop l k 0
    rw [h] at this
    simpa using this.symm
  rw [h0]
  rfl

theorem drop_succ_of_drop_eq_cons {l : List Callback} {k : Nat}
    {cb : Callback} {rest : List Callback} (h : l.drop k = cb :: rest) :
    l.drop (k + 1) = rest := by
  rw [List.drop_add, h]
  rfl

theorem findEligible_cons_some {error : Bool} {dv : Nat} {cb : Callback}
    {rest : List Callback}
    (h : error = true ∨ cb.delivered_version ≠ dv) :
    findEligible error dv (cb :: rest) = some 0 := by
  rcases h with h | h <;> simp [findEligible, h]

theorem next_callback_drain {s : AsyncQuery}
    (h : findEligible s.error s.delievered_table_version
        (s.callbacks.drop (cursorPos s)) = none) :
    next_callback s = ({ s with callback_index := none }, none) := by
  simp only [next_callback, h]

theorem next_callback_yield_head {s : AsyncQuery} {cb : Callback}
    {rest : List Callback}
    (hd : s.callbacks.drop (cursorPos s) = cb :: rest)
    (helig : s.error = true ∨
      cb.delivered_version ≠ s.delievered_table_version) :
    next_callback s =
      ({ s with
          callback_index := some (cursorPos s),
          callbacks := s.callbacks.set (cursorPos s)
            (markDelivered cb s.delievered_table_version) },
       some cb.fn) := by
  have hfe : findEligible s.error s.delievered_table_version
      (s.callbacks.drop (cursorPos s)) = some 0 := by
    rw [hd]
    exact findEligible_cons_some helig
  have hgd : s.callbacks.getD (cursorPos s) defaultCallback = cb :=
    getD_of_drop_eq_cons hd
  simp only [next_callback, hfe, Nat.add_zero, hgd]

/-- With a latched error, the `while` loop of `call_callbacks` yields every
callback from the cursor to the end of the registry, in order, and preserves
the error flag and the registry length. -/
theorem call_callbacks_loop_error (s : AsyncQuery) (he : s.error = true) :
    (call_callbacks_loop s).2 =
        (s.callbacks.drop (cursorPos s)).map Callback.fn ∧
      (call_callbacks_loop s).1.error = true := by
  generalize hn : s.callbacks.length - cursorPos s = n
  induction n using Nat.strong_induction_on generalizing s with
  | _ n ih =>
    cases hd : s.callbacks.drop (cursorPos s) with
    | nil =>
      have hfe : findEligible s.error s.delievered_table_version
          (s.callbacks.drop (cursorPos s)) = none := by
        rw [hd]
        rfl
      rw [call_callbacks_loop.eq_def, next_callback_drain hfe]
      simp [hd]
      exact he
    | cons cb rest =>
      have hnc := next_callback_yield_head hd (Or.inl he)
      have hlen : cursorPos s < s.callbacks.length := by
        have := congrArg List.length hd
        rw [List.length_drop] at this
        simp at this
        omega
      set s' : AsyncQuery :=
        { s with
          callback_index := some (cursorPos s),
          callbacks := s.callbacks.set (cursorPos s)
            (markDelivered cb s.delievered_table_version) } with hs'
      have hstep : call_callbacks_loop s =
          ((call_callbacks_loop s').1, cb.fn :: (call_callbacks_loop s').2) := by
        rw [call_callbacks_loop.eq_def, hnc]
      have hcp : cursorPos s' = cursorPos s + 1 := by
        simp [hs', cursorPos]
      have hdrop : s'.callbacks.drop (cursorPos s') = rest := by
        rw [hcp]
        show (s.callbacks.set (cursorPos s) _).drop (cursorPos s + 1) = rest
        rw [List.drop_set_of_lt _ _ (Nat.lt_succ_self _)]
        exact drop_succ_of_drop_eq_cons hd
      have herr : s'.error = true := he
      have hm : s'.callbacks.length - cursorPos s' < n := by
        simp only [hs', hcp, List.length_set]
        omega
      obtain ⟨h1, h2⟩ := ih _ hm s' herr rfl
      rw [hstep]
      refine ⟨?_, h2⟩
      simp only [hd, h1, hdrop, List.map_cons]

/-- The loop yields nothing from an empty registry. -/
theorem call_callbacks_loop_empty (s : AsyncQuery) (h : s.callbacks = []) :
    call_callbacks_loop s = ({ s with callback_index := none }, []) := by
  have hfe : findEligible s.error s.delievered_table_version
      (s.callbacks.drop (cursorPos s)) = none := by
    rw [h]
    simp [findEligible]
  rw [call_callbacks_loop.eq_def, next_callback_drain hfe]

/-- C5: when `deliver` is called with an error on the consumer thread while
the target is alive and no iteration is in progress, the error is latched
into `m_error` and `m_have_callbacks` is returned; `call_callbacks` then
invokes every currently registered callback exactly once, in registration
order (the yielded identities are exactly `callbacks.map fn`), clears the
registry afterwards, and a further `call_callbacks` invokes nothing. -/
theorem C5_error_delivery (s : AsyncQuery) (v : Nat)
    (htarget : s.target_results = true) (hci : s.callback_index = none) :
    (deliver s true true v).1 = { s with error := true } ∧
      (deliver s true true v).2 = s.have_callbacks ∧
      (call_callbacks { s with error := true }).2 =
        s.callbacks.map Callback.fn ∧
      (call_callbacks { s with error := true }).1.callbacks = [] ∧
      (call_callbacks (call_callbacks { s with error := true }).1).2 = [] := by
  have hdel : deliver s true true v = ({ s with error := true }, s.have_callbacks) := by
    simp [deliver, htarget]
  have hcp : cursorPos { s with error := true } = 0 := by
    simp [cursorPos, hci]
  obtain ⟨hlog, herr⟩ :=
    call_callbacks_loop_error { s with error := true } rfl
  have hlog' : (call_callbacks_loop { s with error := true }).2 =
      s.callbacks.map Callback.fn := by
    rw [hlog, hcp]
    rfl
  have hcc2 : (call_callbacks { s with error := true }).2 =
      s.callbacks.map Callback.fn := by
    rw [call_callbacks]
    exact hlog'
  have hcc1 : (call_callbacks { s with error := true }).1.callbacks = [] := by
    rw [call_callbacks]
    simp only [herr, if_pos]
  refine ⟨by rw [hdel], by rw [hdel], hcc2, hcc1, ?_⟩
  rw [call_callbacks, call_callbacks_loop_empty _ hcc1]

/-- Witness for C5: a query with two registered callbacks; the error delivery
fires both (identities 0 and 1) and clears the registry. -/
theorem C5_witness :
    (call_callbacks
        { (add_callback (add_callback (AsyncQuery.init 0) []).1 []).1 with
            error := true }).2 = [0, 1] ∧
      (call_callbacks
        { (add_callback (add_callback (AsyncQuery.init 0) []).1 []).1 with
            error := true }).1.callbacks = [] := by
  have h := C5_error_delivery
    (add_callback (add_callback (AsyncQuery.init 0) []).1 []).1 0
    (by decide) (by decide)
  exact ⟨h.2.2.1.trans (by decide), h.2.2.2.1⟩

/-! ### C1: reentrancy-safe iteration — index kit -/

theorem getElem?_getD {l : List Callback} {i : Nat} (h : i < l.length) :
    l[i]? = some (l.getD i defaultCallback) := by
  rw [List.getD_eq_getElem?_getD]
  rcases hx : l[i]? with _ | cb
  · rw [List.getElem?_eq_none_iff] at hx
    omega
  · rfl

theorem getD_set_self {l : List Callback} {i : Nat} {a : Callback}
    (h : i < l.length) : (l.set i a).getD i defaultCallback = a := by
  rw [List.getD_eq_getElem?_getD, List.getElem?_set_eq h]
  rfl

theorem getD_set_ne {l : List Callback} {i j : Nat} {a : Callback}
    (h : i ≠ j) :
    (l.set i a).getD j defaultCallback = l.getD j defaultCallback := by
  rw [List.getD_eq_getElem?_getD, List.getElem?_set_ne h,
    ← List.getD_eq_getElem?_getD]

theorem getD_eraseIdx_lt {l : List Callback} {i j : Nat} (h : j < i) :
    (l.eraseIdx i).getD j defaultCallback = l.getD j defaultCallback := by
  rw [List.getD_eq_getElem?_getD, List.getElem?_eraseIdx_of_lt l i j h,
    ← List.getD_eq_getElem?_getD]

theorem getD_eraseIdx_ge {l : List Callback} {i j : Nat} (h : i ≤ j) :
    (l.eraseIdx i).getD j defaultCallback = l.getD (j + 1) defaultCallback := by
  rw [List.getD_eq_getElem?_getD, List.getElem?_eraseIdx_of_ge l i j h,
    ← List.getD_eq_getElem?_getD]

theorem getD_append_left {l m : List Callback} {j : Nat} (h : j < l.length) :
    (l ++ m).getD j defaultCallback = l.getD j defaultCallback := by
  rw [List.getD_eq_getElem?_getD, List.getElem?_append_left h,
    ← List.getD_eq_getElem?_getD]

theorem getD_append_self {l : List Callback} {x : Callback} :
    (l ++ [x]).getD l.length defaultCallback = x := by
  rw [List.getD_eq_getElem?_getD,
    List.getElem?_append_right (Nat.le_refl l.length)]
  simp

theorem mem_iff_getD {l : List Callback} {cb : Callback} :
    cb ∈ l ↔ ∃ i, i < l.length ∧ l.getD i defaultCallback = cb := by
  constructor
  · intro h
    obtain ⟨i, hi, hv⟩ := List.mem_iff_getElem.mp h
    refine ⟨i, hi, ?_⟩
    rw [List.getD_eq_getElem?_getD, List.getElem?_eq_getElem hi, hv]
    rfl
  · rintro ⟨i, hi, rfl⟩
    exact List.getElem?_mem (getElem?_getD hi)

theorem getD_mem {l : List Callback} {i : Nat} (h : i < l.length) :
    l.getD i defaultCallback ∈ l :=
  mem_iff_getD.mpr ⟨i, h, rfl⟩

theorem getD_drop {l : List Callback} {i j : Nat} :
    (l.drop i).getD j defaultCallback = l.getD (i + j) defaultCallback := by
  rw [List.getD_eq_getElem?_getD, List.getElem?_drop,
    ← List.getD_eq_getElem?_getD]

/-! ### C1: what a successful / failed scan of findEligible means -/

theorem findEligible_some_spec {e : Bool} {dv : Nat} :
    ∀ {l : List Callback} {k : Nat}, findEligible e dv l = some k →
      k < l.length ∧
        (e = true ∨ (l.getD k defaultCallback).delivered_version ≠ dv) ∧
        ∀ j, j < k →
          e = false ∧ (l.getD j defaultCallback).delivered_version = dv := by
  intro l
  induction l with
  | nil => intro k h; simp [findEligible] at h
  | cons cb rest ih =>
    intro k h
    rw [findEligible] at h
    split at h
    · rename_i hcond
      simp only [Bool.or_eq_true, decide_eq_true_eq] at hcond
      simp only [Option.some.injEq] at h
      subst h
      refine ⟨by simp only [List.length_cons]; omega, ?_, by omega⟩
      simpa only [List.getD_cons_zero] using hcond
    · rename_i hcond
      simp only [Bool.or_eq_true, decide_eq_true_eq, not_or,
        Bool.not_eq_true, not_not] at hcond
      cases hr : findEligible e dv rest with
      | none => rw [hr] at h; simp at h
      | some k2 =>
        rw [hr] at h
        simp at h
        subst h
        obtain ⟨hk, helig, hbefore⟩ := ih hr
        refine ⟨by simp; omega, by simpa using helig, ?_⟩
        intro j hj
        cases j with
        | zero => exact ⟨hcond.1, hcond.2⟩
        | succ j2 =>
          have := hbefore j2 (by omega)
          simpa using this

theorem findEligible_none_spec {e : Bool} {dv : Nat} :
    ∀ {l : List Callback}, findEligible e dv l = none →
      ∀ cb ∈ l, e = false ∧ cb.delivered_version = dv := by
  intro l
  induction l with
  | nil => intro _ cb hcb; cases hcb
  | cons cb rest ih =>
    intro h x hx
    rw [findEligible] at h
    split at h
    · cases h
    · rename_i hcond
      simp only [Bool.or_eq_true, decide_eq_true_eq, not_or,
        Bool.not_eq_true, not_not] at hcond
      rcases List.mem_cons.mp hx with rfl | hx2
      · exact hcond
      · cases hr : findEligible e dv rest with
        | none => exact ih hr x hx2
        | some k2 => rw [hr] at h; simp at h

/-! ### C1: the delivery invariant -/

/-- The inductive invariant of one delivery of `call_callbacks` with
reentrant `add_callback` / `remove_callback` calls: `s0` is the state at the
start of the delivery (cursor parked at `npos`), `s` the current state and
`L` the identities yielded so far. -/
structure DeliveryInv (s0 s : AsyncQuery) (L : List Nat) : Prop where
  fns_nodup : (s.callbacks.map Callback.fn).Nodup
  fresh : ∀ cb ∈ s.callbacks, cb.fn < s.next_fn
  log_fresh : ∀ x ∈ L, x < s.next_fn
  log_nodup : L.Nodup
  yielded_le_cursor : ∀ i, i < s.callbacks.length →
    (s.callbacks.getD i defaultCallback).fn ∈ L →
      ∃ c, s.callback_index = some c ∧ i ≤ c
  below_cursor_done : ∀ i, i < s.callbacks.length → i < cursorPos s →
    (s.error = true → (s.callbacks.getD i defaultCallback).fn ∈ L) ∧
      (s.error = false →
        (s.callbacks.getD i defaultCallback).delivered_version =
          s.delievered_table_version)
  cursor_le : cursorPos s ≤ s.callbacks.length
  provenance : ∀ cb ∈ s.callbacks, cb.fn ∉ L →
    cb ∈ s0.callbacks ∨ cb.delivered_version = npos
  error_eq : s.error = s0.error
  dv_eq : s.delievered_table_version = s0.delievered_table_version
  dv_ne : s0.delievered_table_version ≠ npos

/-- The invariant holds at the start of a delivery. -/
theorem deliveryInv_base (s0 : AsyncQuery) (hci : s0.callback_index = none)
    (hnodup : (s0.callbacks.map Callback.fn).Nodup)
    (hfresh : ∀ cb ∈ s0.callbacks, cb.fn < s0.next_fn)
    (hdv : s0.delievered_table_version ≠ npos) :
    DeliveryInv s0 s0 [] where
  fns_nodup := hnodup
  fresh := hfresh
  log_fresh := by intro x hx; cases hx
  log_nodup := List.nodup_nil
  yielded_le_cursor := by intro i _ hmem; cases hmem
  below_cursor_done := by
    intro i _ hlt
    have hcp : cursorPos s0 = 0 := by simp [cursorPos, hci]
    omega
  cursor_le := by
    have hcp : cursorPos s0 = 0 := by simp [cursorPos, hci]
    omega
  provenance := by intro cb hcb _; exact Or.inl hcb
  error_eq := rfl
  dv_eq := rfl
  dv_ne := hdv

/-! ### C1: invariant preservation under a yield -/

theorem map_fn_set_markDelivered (l : List Callback) (i : Nat) (v : Nat)
    (h : i < l.length) :
    (l.set i (markDelivered (l.getD i defaultCallback) v)).map Callback.fn =
      l.map Callback.fn := by
  apply List.ext_getElem?_iff.mpr
  intro j
  by_cases hj : i = j
  · subst hj
    rw [List.getElem?_map, List.getElem?_map, List.getElem?_set_eq h,
      getElem?_getD h]
    rfl
  · rw [List.getElem?_map, List.getElem?_map, List.getElem?_set_ne hj]

theorem fns_nodup_getD_ne {l : List Callback}
    (h : (l.map Callback.fn).Nodup) {i j : Nat} (hi : i < l.length)
    (hj : j < l.length) (hne : i ≠ j) :
    (l.getD i defaultCallback).fn ≠ (l.getD j defaultCallback).fn := by
  intro heq
  apply hne
  have hi2 : i < (l.map Callback.fn).length := by simpa using hi
  have hj2 : j < (l.map Callback.fn).length := by simpa using hj
  refine (@List.Nodup.getElem_inj_iff _ _ h i hi2 j hj2).mp ?_
  rw [List.getElem_map, List.getElem_map,
    ← List.getD_eq_getElem l defaultCallback hi,
    ← List.getD_eq_getElem l defaultCallback hj, heq]

theorem next_callback_yield_decomp {s s2 : AsyncQuery} {f : Nat}
    (h : next_callback s = (s2, some f)) :
    ∃ k, findEligible s.error s.delievered_table_version
        (s.callbacks.drop (cursorPos s)) = some k ∧
      s2 = { s with
        callback_index := some (cursorPos s + k),
        callbacks := s.callbacks.set (cursorPos s + k)
          (markDelivered
            (s.callbacks.getD (cursorPos s + k) defaultCallback)
            s.delievered_table_version) } ∧
      f = (s.callbacks.getD (cursorPos s + k) defaultCallback).fn := by
  rw [next_callback] at h
  cases hf : findEligible s.error s.delievered_table_version
      (s.callbacks.drop (cursorPos s)) with
  | none => rw [hf] at h; simp at h
  | some k =>
    rw [hf] at h
    simp only [Prod.mk.injEq, Option.some.injEq] at h
    exact ⟨k, rfl, h.1.symm, h.2.symm⟩

theorem deliveryInv_yield {s0 s s2 : AsyncQuery} {L : List Nat} {f : Nat}
    (inv : DeliveryInv s0 s L) (h : next_callback s = (s2, some f)) :
    DeliveryInv s0 s2 (L ++ [f]) ∧ f ∉ L := by
  obtain ⟨k, hfe, hs2, hffn⟩ := next_callback_yield_decomp h
  obtain ⟨hk, helig, hbefore⟩ := findEligible_some_spec hfe
  rw [List.length_drop] at hk
  have hidxlen : cursorPos s + k < s.callbacks.length := by omega
  have helig2 : s.error = true ∨
      (s.callbacks.getD (cursorPos s + k)
        defaultCallback).delivered_version ≠ s.delievered_table_version := by
    rw [getD_drop] at helig
    exact helig
  have hbefore2 : ∀ j, cursorPos s ≤ j → j < cursorPos s + k →
      s.error = false ∧
        (s.callbacks.getD j defaultCallback).delivered_version =
          s.delievered_table_version := by
    intro j h1 h2
    have hb := hbefore (j - cursorPos s) (by omega)
    rw [getD_drop] at hb
    have hj : cursorPos s + (j - cursorPos s) = j := by omega
    rw [hj] at hb
    exact hb
  have hfnotinL : f ∉ L := by
    intro hmem
    rw [hffn] at hmem
    obtain ⟨c, hc, hle⟩ := inv.yielded_le_cursor _ hidxlen hmem
    have : cursorPos s = c + 1 := by simp [cursorPos, hc]
    omega
  have hlen2 : s2.callbacks.length = s.callbacks.length := by
    rw [hs2]
    simp
  have hci2 : s2.callback_index = some (cursorPos s + k) := by rw [hs2]
  have hcp2 : cursorPos s2 = cursorPos s + k + 1 := by
    simp [cursorPos, hci2]
  have hgetD2idx : s2.callbacks.getD (cursorPos s + k) defaultCallback =
      markDelivered (s.callbacks.getD (cursorPos s + k) defaultCallback)
        s.delievered_table_version := by
    rw [hs2]
    exact getD_set_self hidxlen
  have hgetD2ne : ∀ j, cursorPos s + k ≠ j →
      s2.callbacks.getD j defaultCallback =
        s.callbacks.getD j defaultCallback := by
    intro j hj
    rw [hs2]
    exact getD_set_ne hj
  have hmapfn : s2.callbacks.map Callback.fn = s.callbacks.map Callback.fn := by
    rw [hs2]
    exact map_fn_set_markDelivered _ _ _ hidxlen
  have hmem2 : ∀ cb ∈ s2.callbacks,
      cb ∈ s.callbacks ∨
        cb = markDelivered
          (s.callbacks.getD (cursorPos s + k) defaultCallback)
          s.delievered_table_version := by
    intro cb hcb
    rw [hs2] at hcb
    exact List.mem_or_eq_of_mem_set hcb
  have herr2 : s2.error = s.error := by rw [hs2]
  have hdv2 : s2.delievered_table_version = s.delievered_table_version := by
    rw [hs2]
  have hnf2 : s2.next_fn = s.next_fn := by rw [hs2]
  refine ⟨⟨?_, ?_, ?_, ?_, ?_, ?_, ?_, ?_, ?_, ?_, inv.dv_ne⟩, hfnotinL⟩
  · rw [hmapfn]
    exact inv.fns_nodup
  · intro cb hcb
    rw [hnf2]
    rcases hmem2 cb hcb with hmem | rfl
    · exact inv.fresh cb hmem
    · show (s.callbacks.getD (cursorPos s + k) defaultCallback).fn < s.next_fn
      exact inv.fresh _ (getD_mem hidxlen)
  · intro x hx
    rw [hnf2]
    rcases List.mem_append.mp hx with hx | hx
    · exact inv.log_fresh x hx
    · rw [List.mem_singleton] at hx
      subst hx
      rw [hffn]
      exact inv.fresh _ (getD_mem hidxlen)
  · simp [List.nodup_append, inv.log_nodup, hfnotinL]
  · intro i hi hmem
    refine ⟨cursorPos s + k, hci2, ?_⟩
    by_cases hieq : cursorPos s + k = i
    · omega
    · rw [hgetD2ne i hieq] at hmem
      rcases List.mem_append.mp hmem with hmem | hmem
      · obtain ⟨c, hc, hle⟩ := inv.yielded_le_cursor i (by omega) hmem
        have : cursorPos s = c + 1 := by simp [cursorPos, hc]
        omega
      · rw [List.mem_singleton] at hmem
        rw [hffn] at hmem
        exact absurd hmem
          (fns_nodup_getD_ne inv.fns_nodup (by omega) hidxlen (Ne.symm hieq))
  · intro i hi hlt
    rw [hcp2] at hlt
    by_cases hieq : cursorPos s + k = i
    · subst hieq
      constructor
      · intro _
        rw [hgetD2idx, hffn]
        exact List.mem_append.mpr (Or.inr (List.mem_singleton.mpr rfl))
      · intro _
        rw [hgetD2idx, hdv2]
        rfl
    · rw [hgetD2ne i hieq, herr2, hdv2]
      by_cases hsmall : i < cursorPos s
      · obtain ⟨he, hne⟩ := inv.below_cursor_done i (by omega) hsmall
        exact ⟨fun hx => List.mem_append.mpr (Or.inl (he hx)), hne⟩
      · have := hbefore2 i (by omega) (by omega)
        exact ⟨fun hx => absurd hx (by simp [this.1]), fun _ => this.2⟩
  · rw [hcp2]
    omega
  · intro cb hcb hnot
    rcases hmem2 cb hcb with hmem | rfl
    · exact inv.provenance cb hmem (fun hx =>
        hnot (List.mem_append.mpr (Or.inl hx)))
    · exact absurd (List.mem_append.mpr (Or.inr (by
        rw [List.mem_singleton, hffn]
        rfl))) hnot
  · rw [herr2]
    exact inv.error_eq
  · rw [hdv2]
    exact inv.dv_eq

/-! ### C1: invariant preservation under reentrant remove / add -/

theorem cursorPos_congr {s1 s2 : AsyncQuery}
    (h : s1.callback_index = s2.callback_index) :
    cursorPos s1 = cursorPos s2 := by
  rw [cursorPos, cursorPos, h]

theorem remove_callback_decomp (s : AsyncQuery) (t : Nat) :
    remove_callback s t = s ∨
      ∃ ridx, ridx < s.callbacks.length ∧
        remove_callback s t = { s with
          callbacks := s.callbacks.eraseIdx ridx,
          callback_index :=
            match s.callback_index with
            | some c =>
              if ridx ≤ c then (if c = 0 then none else some (c - 1))
              else some c
            | none => none,
          have_callbacks := !(s.callbacks.eraseIdx ridx).isEmpty } := by
  cases hf : s.callbacks.findIdx? (fun c => c.token = t) with
  | none => left; rw [remove_callback, hf]
  | some ridx =>
    right
    refine ⟨ridx, (List.findIdx?_eq_some_iff_findIdx_eq.mp hf).1, ?_⟩
    rw [remove_callback, hf]

theorem deliveryInv_erase_general {s0 s s2 : AsyncQuery} {L : List Nat}
    {ridx : Nat} (inv : DeliveryInv s0 s L)
    (hrlen : ridx < s.callbacks.length)
    (hcb : s2.callbacks = s.callbacks.eraseIdx ridx)
    (herr : s2.error = s.error)
    (hdv : s2.delievered_table_version = s.delievered_table_version)
    (hnf : s2.next_fn = s.next_fn)
    (hcur1 : ∀ i, i < cursorPos s2 →
      (if i < ridx then i else i + 1) < cursorPos s)
    (hcur2 : ∀ i, (if i < ridx then i else i + 1) < cursorPos s →
      ∃ c2, s2.callback_index = some c2 ∧ i ≤ c2)
    (hcur3 : cursorPos s2 ≤ s2.callbacks.length) :
    DeliveryInv s0 s2 L := by
  have hlen2 : s2.callbacks.length = s.callbacks.length - 1 := by
    rw [hcb]
    exact List.length_eraseIdx_of_lt hrlen
  have hsub : ∀ cb ∈ s2.callbacks, cb ∈ s.callbacks := by
    rw [hcb]
    exact fun cb hcb2 => (s.callbacks.eraseIdx_sublist ridx).subset hcb2
  have hgetD : ∀ i, i < s2.callbacks.length →
      s2.callbacks.getD i defaultCallback =
        s.callbacks.getD (if i < ridx then i else i + 1) defaultCallback := by
    intro i _
    rw [hcb]
    by_cases hir : i < ridx
    · rw [if_pos hir]
      exact getD_eraseIdx_lt hir
    · rw [if_neg hir]
      exact getD_eraseIdx_ge (by omega)
  refine ⟨?_, ?_, ?_, inv.log_nodup, ?_, ?_, hcur3, ?_, ?_, ?_, inv.dv_ne⟩
  · rw [hcb]
    exact inv.fns_nodup.sublist ((s.callbacks.eraseIdx_sublist ridx).map _)
  · intro cb hm
    rw [hnf]
    exact inv.fresh cb (hsub cb hm)
  · intro x hx
    rw [hnf]
    exact inv.log_fresh x hx
  · intro i hi hmem
    by_cases hir : i < ridx
    · rw [hgetD i hi, if_pos hir] at hmem
      obtain ⟨c, hc, hle⟩ := inv.yielded_le_cursor i (by omega) hmem
      have hcps : cursorPos s = c + 1 := by simp [cursorPos, hc]
      refine hcur2 i ?_
      rw [if_pos hir]
      omega
    · rw [hgetD i hi, if_neg hir] at hmem
      obtain ⟨c, hc, hle⟩ := inv.yielded_le_cursor (i + 1) (by omega) hmem
      have hcps : cursorPos s = c + 1 := by simp [cursorPos, hc]
      refine hcur2 i ?_
      rw [if_neg hir]
      omega
  · intro i hi hlt
    have h1 := hcur1 i hlt
    by_cases hir : i < ridx
    · rw [if_pos hir] at h1
      rw [hgetD i hi, if_pos hir, herr, hdv]
      exact inv.below_cursor_done i (by omega) h1
    · rw [if_neg hir] at h1
      rw [hgetD i hi, if_neg hir, herr, hdv]
      exact inv.below_cursor_done (i + 1) (by omega) h1
  · intro cb hm hnot
    exact inv.provenance cb (hsub cb hm) hnot
  · rw [herr]
    exact inv.error_eq
  · rw [hdv]
    exact inv.dv_eq

theorem deliveryInv_remove {s0 s : AsyncQuery} {L : List Nat} (t : Nat)
    (inv : DeliveryInv s0 s L) : DeliveryInv s0 (remove_callback s t) L := by
  rcases remove_callback_decomp s t with heq | ⟨ridx, hrlen, heq⟩
  · rw [heq]
    exact inv
  rw [heq]
  rcases hci : s.callback_index with _ | c
  case none =>
    have hcps : cursorPos s = 0 := by simp [cursorPos, hci]
    show DeliveryInv s0 { s with
      callbacks := s.callbacks.eraseIdx ridx,
      callback_index := none,
      have_callbacks := !(s.callbacks.eraseIdx ridx).isEmpty } L
    refine deliveryInv_erase_general inv hrlen rfl rfl rfl rfl ?_ ?_ ?_
    · intro i hi
      simp [cursorPos] at hi
    · intro i h
      rw [hcps] at h
      split at h <;> exact absurd h (Nat.not_lt_zero _)
    · show (0 : Nat) ≤ _
      exact Nat.zero_le _
  case some =>
    have hcps : cursorPos s = c + 1 := by simp [cursorPos, hci]
    show DeliveryInv s0 { s with
      callbacks := s.callbacks.eraseIdx ridx,
      callback_index :=
        if ridx ≤ c then (if c = 0 then none else some (c - 1)) else some c,
      have_callbacks := !(s.callbacks.eraseIdx ridx).isEmpty } L
    have hclen : c + 1 ≤ s.callbacks.length := by
      have := inv.cursor_le
      omega
    by_cases hrc : ridx ≤ c
    case pos =>
      by_cases hc0 : c = 0
      case pos =>
        subst hc0
        have hr0 : ridx = 0 := by omega
        subst hr0
        rw [if_pos (Nat.le_refl 0), if_pos rfl]
        refine deliveryInv_erase_general inv hrlen rfl rfl rfl rfl ?_ ?_ ?_
        · intro i hi
          simp [cursorPos] at hi
        · intro i h
          rw [hcps, if_neg (Nat.not_lt_zero _)] at h
          omega
        · show (0 : Nat) ≤ _
          exact Nat.zero_le _
      case neg =>
        rw [if_pos hrc, if_neg hc0]
        have hcps2 : cursorPos { s with
            callbacks := s.callbacks.eraseIdx ridx,
            callback_index := some (c - 1),
            have_callbacks := !(s.callbacks.eraseIdx ridx).isEmpty } = c := by
          simp only [cursorPos]
          omega
        refine deliveryInv_erase_general inv hrlen rfl rfl rfl rfl ?_ ?_ ?_
        · intro i hi
          rw [hcps2] at hi
          rw [hcps]
          split <;> omega
        · intro i h
          rw [hcps] at h
          refine ⟨c - 1, rfl, ?_⟩
          by_cases hir : i < ridx
          · rw [if_pos hir] at h
            omega
          · rw [if_neg hir] at h
            omega
        · rw [hcps2]
          show c ≤ (s.callbacks.eraseIdx ridx).length
          rw [List.length_eraseIdx_of_lt hrlen]
          omega
    case neg =>
      rw [if_neg hrc]
      have hcps2 : cursorPos { s with
          callbacks := s.callbacks.eraseIdx ridx,
          callback_index := some c,
          have_callbacks := !(s.callbacks.eraseIdx ridx).isEmpty } = c + 1 := by
        simp only [cursorPos]
      refine deliveryInv_erase_general inv hrlen rfl rfl rfl rfl ?_ ?_ ?_
      · intro i hi
        rw [hcps2] at hi
        rw [hcps]
        split <;> omega
      · intro i h
        rw [hcps] at h
        refine ⟨c, rfl, ?_⟩
        by_cases hir : i < ridx
        · rw [if_pos hir] at h
          omega
        · rw [if_neg hir] at h
          omega
      · rw [hcps2]
        show c + 1 ≤ (s.callbacks.eraseIdx ridx).length
        rw [List.length_eraseIdx_of_lt hrlen]
        omega


theorem add_callback_fields (s : AsyncQuery) (cols : List (List Nat)) :
    (add_callback s cols).1.callbacks =
        s.callbacks ++ [⟨s.next_fn, next_token s.callbacks, npos, cols⟩] ∧
      (add_callback s cols).1.callback_index = s.callback_index ∧
      (add_callback s cols).1.next_fn = s.next_fn + 1 ∧
      (add_callback s cols).1.error = s.error ∧
      (add_callback s cols).1.delievered_table_version =
        s.delievered_table_version := by
  rw [add_callback]
  split
  · exact ⟨rfl, rfl, rfl, rfl, rfl⟩
  · exact ⟨rfl, rfl, rfl, rfl, rfl⟩

theorem deliveryInv_add {s0 s : AsyncQuery} {L : List Nat}
    (cols : List (List Nat)) (inv : DeliveryInv s0 s L) :
    DeliveryInv s0 (add_callback s cols).1 L := by
  obtain ⟨hcb, hci, hnf, herr, hdv⟩ := add_callback_fields s cols
  have hcp : cursorPos (add_callback s cols).1 = cursorPos s :=
    cursorPos_congr hci
  have hlen : (add_callback s cols).1.callbacks.length =
      s.callbacks.length + 1 := by
    rw [hcb]
    simp
  refine ⟨?_, ?_, ?_, inv.log_nodup, ?_, ?_, ?_, ?_, ?_, ?_, inv.dv_ne⟩
  · rw [hcb, List.map_append]
    rw [List.nodup_append]
    refine ⟨inv.fns_nodup, List.nodup_singleton _, ?_⟩
    intro x hx
    rw [List.map_singleton, List.mem_singleton]
    obtain ⟨cb, hcbm, rfl⟩ := List.mem_map.mp hx
    show cb.fn ≠ s.next_fn
    have := inv.fresh cb hcbm
    omega
  · intro cb hcbm
    rw [hnf]
    rw [hcb] at hcbm
    rcases List.mem_append.mp hcbm with hm | hm
    · have := inv.fresh cb hm
      omega
    · rw [List.mem_singleton] at hm
      subst hm
      show s.next_fn < s.next_fn + 1
      omega
  · intro x hx
    rw [hnf]
    have := inv.log_fresh x hx
    omega
  · intro i hi hmem
    rw [hlen] at hi
    rw [hci]
    by_cases hil : i < s.callbacks.length
    · rw [hcb, getD_append_left hil] at hmem
      exact inv.yielded_le_cursor i hil hmem
    · have hieq : i = s.callbacks.length := by omega
      subst hieq
      rw [hcb, getD_append_self] at hmem
      have hmem2 : s.next_fn ∈ L := hmem
      have := inv.log_fresh _ hmem2
      omega
  · intro i hi hlt
    rw [hcp] at hlt
    have hil : i < s.callbacks.length := by
      have := inv.cursor_le
      omega
    rw [hcb, getD_append_left hil, herr, hdv]
    exact inv.below_cursor_done i hil hlt
  · rw [hcp, hlen]
    have := inv.cursor_le
    omega
  · intro cb hcbm hnot
    rw [hcb] at hcbm
    rcases List.mem_append.mp hcbm with hm | hm
    · exact inv.provenance cb hm hnot
    · rw [List.mem_singleton] at hm
      subst hm
      exact Or.inr rfl
  · rw [herr]
    exact inv.error_eq
  · rw [hdv]
    exact inv.dv_eq

theorem deliveryInv_applyOp {s0 s : AsyncQuery} {L : List Nat} (op : CbOp)
    (inv : DeliveryInv s0 s L) : DeliveryInv s0 (applyOp s op) L := by
  cases op with
  | add cols => exact deliveryInv_add cols inv
  | remove t => exact deliveryInv_remove t inv

theorem deliveryInv_applyOps {s0 s : AsyncQuery} {L : List Nat}
    (ops : List CbOp) (inv : DeliveryInv s0 s L) :
    DeliveryInv s0 (applyOps s ops) L := by
  induction ops generalizing s with
  | nil => exact inv
  | cons op rest ih => exact ih (deliveryInv_applyOp op inv)

/-! ### C1: a drained scan, the master induction, and the claim -/

theorem deliveryInv_drain {s0 s s2 : AsyncQuery} {L : List Nat}
    (inv : DeliveryInv s0 s L) (h : next_callback s = (s2, none)) :
    s2.callbacks = s.callbacks ∧
      ∀ cb ∈ s.callbacks, cb.fn ∉ L →
        s0.error = false ∧ cb ∈ s0.callbacks ∧
          cb.delivered_version = s0.delievered_table_version := by
  have hfe : findEligible s.error s.delievered_table_version
      (s.callbacks.drop (cursorPos s)) = none := by
    rw [next_callback] at h
    cases hf : findEligible s.error s.delievered_table_version
        (s.callbacks.drop (cursorPos s)) with
    | none => rfl
    | some k => rw [hf] at h; simp at h
  have hs2 : s2 = { s with callback_index := none } := by
    rw [next_callback, hfe] at h
    simp only [Prod.mk.injEq] at h
    exact h.1.symm
  have hall := findEligible_none_spec hfe
  refine ⟨by rw [hs2], ?_⟩
  intro cb hm hnot
  obtain ⟨i, hi, hgd⟩ := mem_iff_getD.mp hm
  by_cases hic : i < cursorPos s
  · obtain ⟨hbe, hbn⟩ := inv.below_cursor_done i hi hic
    cases herr : s.error with
    | true =>
      exfalso
      apply hnot
      rw [← hgd]
      exact hbe herr
    | false =>
      have hdvi : cb.delivered_version = s.delievered_table_version := by
        rw [← hgd]
        exact hbn herr
      refine ⟨by rw [← inv.error_eq]; exact herr, ?_,
        by rw [← inv.dv_eq]; exact hdvi⟩
      rcases inv.provenance cb hm hnot with hp | hp
      · exact hp
      · exfalso
        rw [hdvi, inv.dv_eq] at hp
        exact inv.dv_ne hp
  · have hdropmem : cb ∈ s.callbacks.drop (cursorPos s) := by
      refine mem_iff_getD.mpr ⟨i - cursorPos s, ?_, ?_⟩
      · rw [List.length_drop]
        omega
      · rw [getD_drop, show cursorPos s + (i - cursorPos s) = i from by omega]
        exact hgd
    obtain ⟨he2, hdv2⟩ := hall cb hdropmem
    refine ⟨by rw [← inv.error_eq]; exact he2, ?_,
      by rw [← inv.dv_eq]; exact hdv2⟩
    rcases inv.provenance cb hm hnot with hp | hp
    · exact hp
    · exfalso
      rw [hdv2, inv.dv_eq] at hp
      exact inv.dv_ne hp

theorem runDelivery_nodup_no_skip (s0 : AsyncQuery) :
    ∀ (reents : List (List CbOp)) (s : AsyncQuery) (L : List Nat),
      DeliveryInv s0 s L →
      (L ++ (runDelivery s reents).2.1).Nodup ∧
        ((runDelivery s reents).2.2 = true →
          ∀ cb ∈ (runDelivery s reents).1.callbacks,
            cb.fn ∉ L ++ (runDelivery s reents).2.1 →
              s0.error = false ∧ cb ∈ s0.callbacks ∧
                cb.delivered_version = s0.delievered_table_version) := by
  intro reents
  induction reents with
  | nil =>
    intro s L inv
    have hr : runDelivery s [] = (s, [], false) := rfl
    rw [hr]
    constructor
    · simpa using inv.log_nodup
    · intro hdrain
      cases hdrain
  | cons ops rest ih =>
    intro s L inv
    cases hnc : next_callback s with
    | mk s2 yr =>
      cases yr with
      | none =>
        have hrun : runDelivery s (ops :: rest) = (s2, [], true) := by
          rw [runDelivery, hnc]
        rw [hrun]
        obtain ⟨hcb, hns⟩ := deliveryInv_drain inv hnc
        constructor
        · simpa using inv.log_nodup
        · intro _ cb hm hnot
          rw [hcb] at hm
          refine hns cb hm ?_
          intro hx
          exact hnot (by simpa using hx)
      | some f =>
        have hrun : runDelivery s (ops :: rest) =
            ((runDelivery (applyOps s2 ops) rest).1,
              f :: (runDelivery (applyOps s2 ops) rest).2.1,
              (runDelivery (applyOps s2 ops) rest).2.2) := by
          rw [runDelivery, hnc]
        rw [hrun]
        obtain ⟨inv2, hfnot⟩ := deliveryInv_yield inv hnc
        have inv3 := deliveryInv_applyOps ops inv2
        obtain ⟨hnodup, hns⟩ := ih (applyOps s2 ops) (L ++ [f]) inv3
        have hasc : L ++ f :: (runDelivery (applyOps s2 ops) rest).2.1 =
            (L ++ [f]) ++ (runDelivery (applyOps s2 ops) rest).2.1 := by
          simp
        constructor
        · rw [hasc]
          exact hnodup
        · intro hd cb hm hnot
          refine hns hd cb hm ?_
          intro hx
          apply hnot
          rw [hasc]
          exact hx

/-- C1: within a single delivery (a run of `next_callback` interleaved with
reentrant `add_callback` / `remove_callback` operations), each registered
callback is yielded at most once (the yield log has no duplicate callback
identities), and when the delivery drains, no callback that survives the
delivery and was scheduled for it is skipped: a surviving callback that was
never yielded must have already carried the delivered table version when the
delivery started (and no error was latched).  This rests on
`remove_callback` decrementing the cursor when the removed entry lies at or
before it. -/
theorem C1_at_most_once_no_skip (s : AsyncQuery)
    (reents : List (List CbOp)) (hci : s.callback_index = none)
    (hnodup : (s.callbacks.map Callback.fn).Nodup)
    (hfresh : ∀ cb ∈ s.callbacks, cb.fn < s.next_fn)
    (hdv : s.delievered_table_version ≠ npos) :
    (runDelivery s reents).2.1.Nodup ∧
      ((runDelivery s reents).2.2 = true →
        ∀ cb ∈ (runDelivery s reents).1.callbacks,
          cb.fn ∉ (runDelivery s reents).2.1 →
            s.error = false ∧ cb ∈ s.callbacks ∧
              cb.delivered_version = s.delievered_table_version) := by
  have h := runDelivery_nodup_no_skip s reents s []
    (deliveryInv_base s hci hnodup hfresh hdv)
  simpa using h

/-- Concrete state for the C1 witness: two registered callbacks (identities
0 and 1, tokens 0 and 1), a delivered table version of 5, cursor parked. -/
def sW : AsyncQuery :=
  { (add_callback (add_callback (AsyncQuery.init 0) []).1 []).1 with
      delievered_table_version := 5 }

/-- Reentrant script for the C1 witness: the first yielded callback removes
the callback with token 0 (itself) from inside its invocation. -/
def reentsW : List (List CbOp) := [[CbOp.remove 0], [], []]

/-- Witness for C1 at a concrete state and reentrant script. -/
theorem C1_witness :
    (runDelivery sW reentsW).2.1.Nodup ∧
      ((runDelivery sW reentsW).2.2 = true →
        ∀ cb ∈ (runDelivery sW reentsW).1.callbacks,
          cb.fn ∉ (runDelivery sW reentsW).2.1 →
            sW.error = false ∧ cb ∈ sW.callbacks ∧
              cb.delivered_version = sW.delievered_table_version) :=
  C1_at_most_once_no_skip sW reentsW (by decide) (by decide) (by decide)
    (by decide)

end RealmAQ
